import Mathlib

/-!
Verification development for the autheliarr synchronisation tool
(`src/main.py`).  The Python program is shallowly embedded: strings are
lists of characters, the Wizarr source rows and the Authelia YAML user
records are structures, the reconciliation loop of `sync_users` is a
recursive function over the source list, and the fallible Argon2 hashing
call is a function into `Except`.  Every definition follows the source
line by line; the comments name the embedded lines.
-/

namespace Autheliarr

/-- Python strings are modelled as lists of unicode scalar characters
(`len`, indexing and the `re` quantifiers all count codepoints, exactly as
`List.length` does here). -/
abbrev Str := List Char

/-! ## Validator (src/main.py lines 159-168)

`validate_username` is `re.match(r'^[a-zA-Z0-9._-]{3,32}$', s)` and
`validate_email` is `re.match(r'^[a-zA-Z0-9._%+-]+@[a-zA-Z0-9.-]+\.[a-zA-Z]{2,}$', s)`.
`re.match` anchors at the start of the string only, and the (non-MULTILINE)
`$` matches at the end of the string or just before a newline that ends the
string; both behaviours are embedded faithfully. -/

/-- Membership in the regex character class `[a-zA-Z0-9._-]`
(ASCII letters and digits only, as in Python's non-unicode classes). -/
def isUsernameChar (c : Char) : Bool :=
  c.isAlpha || c.isDigit || c = '.' || c = '_' || c = '-'

/-- Membership in the local-part class `[a-zA-Z0-9._%+-]` of the email regex. -/
def isLocalChar (c : Char) : Bool :=
  c.isAlpha || c.isDigit || c = '.' || c = '_' || c = '%' || c = '+' || c = '-'

/-- Membership in the domain class `[a-zA-Z0-9.-]` of the email regex. -/
def isDomainChar (c : Char) : Bool :=
  c.isAlpha || c.isDigit || c = '.' || c = '-'

/-- Membership in the top-level-label class `[a-zA-Z]` of the email regex. -/
def isTldChar (c : Char) : Bool :=
  c.isAlpha

/-- Python's (non-MULTILINE) `$` assertion: position `k` of `s` is accepted
iff it is the end of the string, or the position just before a newline that
is the last character of the string. -/
def pyDollar (s : Str) (k : Nat) : Bool :=
  decide (k = s.length) ||
    (decide (k + 1 = s.length) && decide (s.getLast? = some '\n'))

/-- Backtracking match of the anchored pattern `^[class]{lo,hi}$` under
Python `re.match` semantics: some repetition count `k` between `lo` and
`hi`, not exceeding the maximal class run from the start, must land on a
position accepted by `$`. -/
def reMatchClassDollar (p : Char → Bool) (lo hi : Nat) (s : Str) : Bool :=
  (List.range (min (s.takeWhile p).length hi + 1)).any fun k =>
    decide (lo ≤ k) && pyDollar s k

/-- src/main.py lines 164-168: `re.match(r'^[a-zA-Z0-9._-]{3,32}$', username) is not None`. -/
def validate_username (s : Str) : Bool :=
  reMatchClassDollar isUsernameChar 3 32 s

/-- Match of `^[a-zA-Z0-9._%+-]+@[a-zA-Z0-9.-]+\.[a-zA-Z]{2,}$` against the
whole of `s` (the `$`-before-trailing-newline case is handled by
`validate_email`).  The engine's behaviour is compiled directly: the local
class excludes `@`, so `[a-zA-Z0-9._%+-]+@` forces the split at the first
`@`; the top-level label is all-alphabetic, so `\.[a-zA-Z]{2,}$` forces the
final split at the last `.`, reached here from the reversed tail. -/
def emailCoreMatch (s : Str) : Bool :=
  match s.dropWhile (fun c => !decide (c = '@')) with
  | [] => false
  | _ :: r =>
    let l := s.takeWhile (fun c => !decide (c = '@'))
    !l.isEmpty && l.all isLocalChar &&
      (match r.reverse.dropWhile isTldChar with
       | [] => false
       | c :: dRev =>
         decide (c = '.') && decide (2 ≤ (r.reverse.takeWhile isTldChar).length) &&
           !dRev.isEmpty && dRev.all isDomainChar)

/-- src/main.py lines 159-162: `re.match(pattern, email) is not None` with
the email pattern; the second disjunct is the `$`-before-final-newline
acceptance of Python's `re`. -/
def validate_email (s : Str) : Bool :=
  emailCoreMatch s ||
    (match s.getLast? with
     | some c => decide (c = '\n') && emailCoreMatch s.dropLast
     | none => false)

/-- The part of a string after its last `.` (the whole string when there is
no `.`); used to state what the spec calls the top-level label. -/
def tldOf (s : Str) : Str :=
  (s.reverse.takeWhile fun c => !decide (c = '.')).reverse

/-- Python `str.title()` (src/main.py line 237) restricted to the ASCII
strings produced by `validate_username`: a letter is uppercased when the
previous character is not a cased letter and lowercased otherwise; other
characters pass through and reset the word boundary. -/
def pyTitleGo (prevCased : Bool) : Str → Str
  | [] => []
  | c :: cs =>
    if c.isAlpha then (if prevCased then c.toLower else c.toUpper) :: pyTitleGo true cs
    else c :: pyTitleGo false cs

/-- src/main.py line 237: `username.title()`. -/
def pyTitle (s : Str) : Str :=
  pyTitleGo false s

/-! ## Credential generator (src/main.py lines 136-157) -/

/-- src/main.py line 140: `string.ascii_letters + string.digits + "!@#$%^&*"`. -/
def password_alphabet : Str :=
  "abcdefghijklmnopqrstuvwxyzABCDEFGHIJKLMNOPQRSTUVWXYZ0123456789!@#$%^&*".toList

/-- src/main.py lines 136-141: `generate_password`.  The cryptographic
randomness of `secrets.choice` is abstracted as the `draw` function giving
the index drawn from the alphabet for each of the `len` positions; the
`length < 8` clamp of line 138-139 is kept. -/
def generate_password (draw : Nat → Fin password_alphabet.length) (len0 : Nat) : Str :=
  (List.range (if len0 < 8 then 8 else len0)).map fun i => password_alphabet.get (draw i)

/-- The fixed leading part of every encoded hash returned by the
argon2-cffi `PasswordHasher` configured at src/main.py lines 147-153
(`$argon2id$v=19$m=65536,t=3,p=4$` followed by salt and hash).  Used only
to state that an encoded hash is never the plaintext itself. -/
def argon2Header : Str :=
  "$argon2id$v=19$m=65536,t=3,p=4$".toList

/-- src/main.py lines 143-157: hashing may raise `Argon2Error`, which
`hash_password` logs and re-raises unchanged. -/
inductive HashErr where
  | argon2Error
deriving Repr, DecidableEq

/-! ## Data model -/

/-- A row of `SELECT username, email FROM user WHERE email IS NOT NULL`
(src/main.py lines 64-65): `{'username': row[0], 'email': row[1]}`. -/
structure WizarrUser where
  username : Str
  email : Str
deriving Repr, DecidableEq

/-- An Authelia user record as `sync_users` reads and writes it
(src/main.py lines 221-241).  Each field models the presence or absence of
the corresponding key in the per-user YAML mapping; the loop reads `email`
with `.get('email', '')` and writes the four keys of lines 236-241. -/
structure AutheliaUser where
  displayname : Option Str
  password : Option Str
  email : Option Str
  groups : Option (List Str)
deriving Repr, DecidableEq

/-- The `users` mapping of the Authelia document, in insertion order, as a
key-unique association list (Python dicts preserve insertion order; new
users are appended, updates are in place). -/
abbrev Users := List (Str × AutheliaUser)

/-- Dictionary lookup `authelia_users[username]` / `username in authelia_users`. -/
def findUser : Users → Str → Option AutheliaUser
  | [], _ => none
  | (k, r) :: rest, u => if k = u then some r else findUser rest u

/-- src/main.py line 226: `authelia_users[username]['email'] = email` — the
in-place update of one key of an existing record. -/
def setEmail : Users → Str → Str → Users
  | [], _, _ => []
  | (k, r) :: rest, u, e =>
    if k = u then (k, { r with email := some e }) :: rest
    else (k, r) :: setEmail rest u e

/-- src/main.py line 236: `authelia_users[username] = {...}` for a username
not yet present — Python dict insertion appends at the end. -/
def insertUser (us : Users) (k : Str) (r : AutheliaUser) : Users :=
  us ++ [(k, r)]

/-- src/main.py lines 236-241: the record created for a new user. -/
def newAutheliaUser (g : Str) (username email passwordHash : Str) : AutheliaUser :=
  { displayname := some (pyTitle username)
    password := some passwordHash
    email := some email
    groups := some [g] }

/-- Both validator checks of src/main.py lines 213-219 pass. -/
def validUser (wu : WizarrUser) : Bool :=
  validate_username wu.username && validate_email wu.email

/-! ## Reconciliation loop (src/main.py lines 191-258) -/

/-- The mutable state of one `sync_users` pass: the `authelia_users`
mapping and the `new_users` / `updated_users` counters (lines 204-206), plus
the number of passwords generated so far, which indexes the abstracted
randomness. -/
structure SyncState where
  users : Users
  new_users : Nat
  updated_users : Nat
  secrets_used : Nat
deriving Repr, DecidableEq

/-- One iteration of the `for wizarr_user in wizarr_users` loop
(src/main.py lines 208-245), with hashing modelled as the total function
`hash` (the fallible variant is `syncLoopE`).  `draws i` is the randomness
consumed by the `i`-th `generate_password()` call of the pass. -/
def syncStep (draws : Nat → Nat → Fin password_alphabet.length) (hash : Str → Str)
    (g : Str) (st : SyncState) (wu : WizarrUser) : SyncState :=
  if validate_username wu.username = true then
    if validate_email wu.email = true then
      match findUser st.users wu.username with
      | some r =>
        if r.email.getD [] ≠ wu.email then
          { st with users := setEmail st.users wu.username wu.email,
                    updated_users := st.updated_users + 1 }
        else st
      | none =>
        let password := generate_password (draws st.secrets_used) 16
        { st with users := insertUser st.users wu.username
                    (newAutheliaUser g wu.username wu.email (hash password)),
                  new_users := st.new_users + 1,
                  secrets_used := st.secrets_used + 1 }
    else st
  else st

/-- The whole `for` loop of src/main.py lines 208-245 over the source list. -/
def syncLoop (draws : Nat → Nat → Fin password_alphabet.length) (hash : Str → Str)
    (g : Str) : List WizarrUser → SyncState → SyncState
  | [], st => st
  | wu :: rest, st => syncLoop draws hash g rest (syncStep draws hash g st wu)

/-- Same loop with the hashing call allowed to raise (src/main.py line 233
calling lines 143-157): an `Argon2Error` escapes `sync_users` immediately,
abandoning the rest of the loop. -/
def syncLoopE (draws : Nat → Nat → Fin password_alphabet.length)
    (hashE : Str → Except HashErr Str) (g : Str) :
    List WizarrUser → SyncState → Except HashErr SyncState
  | [], st => .ok st
  | wu :: rest, st =>
    if validate_username wu.username = true then
      if validate_email wu.email = true then
        match findUser st.users wu.username with
        | some r =>
          if r.email.getD [] ≠ wu.email then
            syncLoopE draws hashE g rest
              { st with users := setEmail st.users wu.username wu.email,
                        updated_users := st.updated_users + 1 }
          else syncLoopE draws hashE g rest st
        | none =>
          match hashE (generate_password (draws st.secrets_used) 16) with
          | .error e => .error e
          | .ok h =>
            syncLoopE draws hashE g rest
              { st with users := insertUser st.users wu.username
                          (newAutheliaUser g wu.username wu.email h),
                        new_users := st.new_users + 1,
                        secrets_used := st.secrets_used + 1 }
      else syncLoopE draws hashE g rest st
    else syncLoopE draws hashE g rest st

/-! ## Target document and the whole pass -/

/-- The whole Authelia YAML document.  `users` is the optional `users`
top-level key (read at line 198 with `.get('users', {})`); every other
top-level key is carried opaquely in `extra` (the pass never inspects
them), with values modelled as opaque strings. -/
structure TargetDoc where
  users : Option Users
  extra : List (Str × Str)
deriving Repr, DecidableEq

/-- The externally visible outcome of one `sync_users` call:
`noUsers` is the early return of lines 200-202 (no save, no restart);
`noChanges` is the `else` of line 257 (no save, no restart);
`saved doc` means lines 249-253 ran — `doc` was written with
`save_authelia_users` and the Authelia restart was requested. -/
inductive PassResult where
  | noUsers
  | noChanges
  | saved (doc : TargetDoc)
deriving Repr, DecidableEq

/-- src/main.py lines 191-258 (`sync_users`) with total hashing: the early
return on an empty source list, the loop, and the save decision
`if new_users > 0 or updated_users > 0` of line 248, which writes the
loaded document with only its `users` key reassigned (line 249). -/
def sync_users (draws : Nat → Nat → Fin password_alphabet.length) (hash : Str → Str)
    (g : Str) (src : List WizarrUser) (doc : TargetDoc) : PassResult :=
  if src.isEmpty then .noUsers
  else
    let st := syncLoop draws hash g src ⟨doc.users.getD [], 0, 0, 0⟩
    if 0 < st.new_users ∨ 0 < st.updated_users then .saved { doc with users := some st.users }
    else .noChanges

/-- `sync_users` with fallible hashing: an `Argon2Error` raised by any
hashing call aborts the pass before the save decision of line 248 is ever
reached, so no document is written. -/
def sync_usersE (draws : Nat → Nat → Fin password_alphabet.length)
    (hashE : Str → Except HashErr Str) (g : Str) (src : List WizarrUser)
    (doc : TargetDoc) : Except HashErr PassResult :=
  if src.isEmpty then .ok .noUsers
  else
    match syncLoopE draws hashE g src ⟨doc.users.getD [], 0, 0, 0⟩ with
    | .error e => .error e
    | .ok st =>
      if 0 < st.new_users ∨ 0 < st.updated_users then
        .ok (.saved { doc with users := some st.users })
      else .ok .noChanges

/-! ## Store adapters and driver (src/main.py lines 55-85, 260-302) -/

/-- The possible outcomes of reading the Wizarr sqlite database
(src/main.py lines 55-71). -/
inductive SourceOutcome where
  | dbMissing
  | readFailed
  | rows (us : List WizarrUser)
deriving Repr

/-- src/main.py lines 55-71: a missing database file or any read error
yields the empty user list; otherwise the queried rows. -/
def get_wizarr_users : SourceOutcome → List WizarrUser
  | .dbMissing => []
  | .readFailed => []
  | .rows us => us

/-- The possible outcomes of reading the Authelia users file
(src/main.py lines 73-85): missing file, open/parse exception, a parsed
document that is falsy (`None` from an empty file, or an empty mapping),
or a truthy parsed mapping. -/
inductive LoadOutcome where
  | fileMissing
  | readFailed
  | yamlFalsy
  | yamlDoc (d : TargetDoc)
deriving Repr

/-- src/main.py lines 73-85 (`load_authelia_users`): every failure mode
collapses to the empty store `{'users': {}}`. -/
def load_authelia_users : LoadOutcome → TargetDoc
  | .fileMissing => ⟨some [], []⟩
  | .readFailed => ⟨some [], []⟩
  | .yamlFalsy => ⟨some [], []⟩
  | .yamlDoc d => d

/-- src/main.py lines 295-302: in single-run mode an exception escaping
`sync_users` produces `exit(1)`; otherwise the process finishes, exiting 0. -/
def single_pass_exit_code (r : Except HashErr PassResult) : Nat :=
  match r with
  | .ok _ => 0
  | .error _ => 1

/-! ## Concrete instances for the closed statements below -/

/-- A concrete randomness source: every draw picks index 0 (`'a'`). -/
def demoDraws : Nat → Nat → Fin password_alphabet.length :=
  fun _ _ => ⟨0, by decide⟩

/-- A second randomness source whose first two passwords differ: creation 0
draws index 0 (`'a'`), every later creation draws index 1 (`'b'`). -/
def demoDraws2 : Nat → Nat → Fin password_alphabet.length :=
  fun i _ => if i = 0 then ⟨0, by decide⟩ else ⟨1, by decide⟩

/-- A concrete stand-in for the Argon2 hasher with the encoded-output shape. -/
def demoHash : Str → Str :=
  fun s => argon2Header ++ s

/-- A hasher failing on every call. -/
def demoHashFail : Str → Except HashErr Str :=
  fun _ => .error .argon2Error

/-- A hasher failing exactly on the second password `demoDraws2` generates
(sixteen `'b'`), so a pass over two new users succeeds on the first and
raises on the second. -/
def demoHashFailSecond : Str → Except HashErr Str :=
  fun s => if s = List.replicate 16 'b' then .error .argon2Error else .ok (demoHash s)

/-- The default group of src/main.py line 49. -/
def demoGroup : Str := "plex_users".toList

/-- The alice source row of the spec's creation scenario. -/
def demoAlice : WizarrUser := ⟨"alice".toList, "alice@example.com".toList⟩

/-- A second valid source row, used for the two-user hashing-failure pass. -/
def demoCarol : WizarrUser := ⟨"carol".toList, "carol@example.com".toList⟩

/-- An existing bob record with an old email, full fields. -/
def demoBobRecord : AutheliaUser :=
  ⟨some "Bob".toList, some (demoHash (List.replicate 16 'z')), some "old@x.com".toList,
    some [demoGroup]⟩

/-- A target mapping already containing bob. -/
def demoBobUsers : Users := [("bob".toList, demoBobRecord)]

/-- A loaded document with one unrelated top-level key next to `users`. -/
def demoDoc : TargetDoc :=
  ⟨some [], [("anchor".toList, "value".toList)]⟩

/-- A source list naming `bob` twice with two different valid emails. -/
def demoDupSource : List WizarrUser :=
  [⟨"bob".toList, "a@x.com".toList⟩, ⟨"bob".toList, "b@x.com".toList⟩]

/-- The document `sync_users` writes when it runs on `demoDoc` with the
single alice source row: the created alice record under `users`, the
unrelated top-level key carried over unchanged. -/
def demoSavedDoc : TargetDoc :=
  ⟨some [("alice".toList,
     ⟨some "Alice".toList, some (demoHash (generate_password (demoDraws 0) 16)),
      some "alice@example.com".toList, some [demoGroup]⟩)],
   [("anchor".toList, "value".toList)]⟩

/-! ## General helper lemmas -/

theorem bool_eq_of_iff {a b : Bool} (h : a = true ↔ b = true) : a = b := by
  cases a <;> cases b <;> simp_all

theorem takeWhile_all_eq {p : Char → Bool} : ∀ {l : Str}, (∀ c ∈ l, p c = true) →
    l.takeWhile p = l
  | [], _ => rfl
  | c :: cs, h => by
    rw [List.takeWhile_cons, if_pos (h c (List.mem_cons_self c cs))]
    exact congrArg (c :: ·) (takeWhile_all_eq fun x hx => h x (List.mem_cons_of_mem c hx))

theorem takeWhile_length_le (p : Char → Bool) : ∀ l : Str, (l.takeWhile p).length ≤ l.length
  | [] => by simp
  | c :: cs => by
    rw [List.takeWhile_cons]
    cases hc : p c
    · simp
    · simp only [if_true, List.length_cons]
      exact Nat.succ_le_succ (takeWhile_length_le p cs)

theorem all_of_length_takeWhile {p : Char → Bool} :
    ∀ {l : Str}, (l.takeWhile p).length = l.length → ∀ c ∈ l, p c = true
  | [], _, c, hc => absurd hc (List.not_mem_nil c)
  | x :: xs, h, c, hc => by
    rw [List.takeWhile_cons] at h
    cases hx : p x with
    | false =>
      rw [hx] at h
      simp at h
    | true =>
      rw [hx] at h
      simp only [if_true, List.length_cons] at h
      rcases List.mem_cons.mp hc with rfl | hc2
      · exact hx
      · exact all_of_length_takeWhile (by omega) c hc2

theorem mem_of_getLast : ∀ {l : Str} {c : Char}, l.getLast? = some c → c ∈ l
  | [], _, h => by simp at h
  | [a], c, h => by
    simp [List.getLast?] at h
    simp [h]
  | a :: b :: t, c, h => by
    rw [List.getLast?_cons_cons] at h
    exact List.mem_cons_of_mem a (mem_of_getLast h)

theorem takeWhile_append_stop {p : Char → Bool} {y : Char} (hy : p y = false) :
    ∀ (xs : Str), (xs ++ [y]).takeWhile p = xs.takeWhile p
  | [] => by simp [List.takeWhile_cons, hy]
  | x :: xs => by
    rw [List.cons_append, List.takeWhile_cons, List.takeWhile_cons]
    cases hx : p x
    · rfl
    · simp only [if_pos rfl]
      exact congrArg (x :: ·) (takeWhile_append_stop hy xs)

theorem takeWhile_all_append {p : Char → Bool} {y : Char} (hy : p y = false) :
    ∀ (xs : Str) (ys : Str), (∀ a ∈ xs, p a = true) →
      (xs ++ y :: ys).takeWhile p = xs
  | [], ys, _ => by simp [List.takeWhile_cons, hy]
  | x :: xs, ys, h => by
    rw [List.cons_append, List.takeWhile_cons, if_pos (h x (List.mem_cons_self x xs))]
    exact congrArg (x :: ·)
      (takeWhile_all_append hy xs ys fun a ha => h a (List.mem_cons_of_mem x ha))

theorem dropWhile_all_append {p : Char → Bool} {y : Char} (hy : p y = false) :
    ∀ (xs : Str) (ys : Str), (∀ a ∈ xs, p a = true) →
      (xs ++ y :: ys).dropWhile p = y :: ys
  | [], ys, _ => by simp [List.dropWhile_cons, hy]
  | x :: xs, ys, h => by
    rw [List.cons_append, List.dropWhile_cons, if_pos (h x (List.mem_cons_self x xs))]
    exact dropWhile_all_append hy xs ys fun a ha => h a (List.mem_cons_of_mem x ha)

theorem dropWhile_head_false {p : Char → Bool} :
    ∀ {l : Str} {c : Char} {r : Str}, l.dropWhile p = c :: r → p c = false
  | [], c, r, h => by simp at h
  | x :: xs, c, r, h => by
    rw [List.dropWhile_cons] at h
    cases hx : p x
    · rw [if_neg (by simp [hx])] at h
      cases h
      exact hx
    · rw [if_pos (by simp [hx])] at h
      exact dropWhile_head_false h

theorem dropWhile_nil_of_all {p : Char → Bool} :
    ∀ {l : Str}, (∀ c ∈ l, p c = true) → l.dropWhile p = []
  | [], _ => rfl
  | x :: xs, h => by
    rw [List.dropWhile_cons, if_pos (h x (List.mem_cons_self x xs))]
    exact dropWhile_nil_of_all fun a ha => h a (List.mem_cons_of_mem x ha)

theorem mem_of_mem_dropLast : ∀ {l : Str} {c : Char}, c ∈ l.dropLast → c ∈ l
  | [], _, h => by simp at h
  | [a], c, h => by simp [List.dropLast] at h
  | a :: b :: t, c, h => by
    rw [List.dropLast_cons₂] at h
    rcases List.mem_cons.mp h with h | h
    · exact h ▸ List.mem_cons_self a (b :: t)
    · exact List.mem_cons_of_mem a (mem_of_mem_dropLast h)

theorem getLast_append_cons (xs : Str) (y : Char) (ys : Str) :
    (xs ++ y :: ys).getLast? = (y :: ys).getLast? := by
  cases h : (y :: ys).getLast? with
  | none => simp at h
  | some a => simp [h]

/-! ## The backtracking matcher, characterized -/

theorem pyDollar_true_iff (s : Str) (k : Nat) :
    pyDollar s k = true ↔ (k = s.length ∨ (k + 1 = s.length ∧ s.getLast? = some '\n')) := by
  simp [pyDollar]

theorem reMatchClassDollar_true_iff (p : Char → Bool) (lo hi : Nat) (s : Str) :
    reMatchClassDollar p lo hi s = true ↔
      ∃ k, k ≤ min (s.takeWhile p).length hi ∧ lo ≤ k ∧ pyDollar s k = true := by
  simp only [reMatchClassDollar, List.any_eq_true, List.mem_range, Nat.lt_succ_iff,
    Bool.and_eq_true, decide_eq_true_eq]

/-! ## Claim C6: the username validator -/

/-- C6 counterexample: the claim says `validate_username` returns false for
every string containing a character outside `[A-Za-z0-9._-]`, but the
Python `$` also matches just before a trailing newline, so the four-character
string `"abc\n"` — which contains the out-of-class character `'\n'` — is
accepted. -/
theorem validate_username_trailing_newline_counterexample :
    validate_username "abc\n".toList = true ∧
      '\n' ∈ "abc\n".toList ∧ isUsernameChar '\n' = false := by decide

/-- C6 amended: on newline-free strings, `validate_username s` is true iff
`s` has length 3 to 32 and every character is in `[A-Za-z0-9._-]` (so it is
false whenever such a string has an out-of-class character or an
out-of-range length); appending one trailing newline to a newline-free
string never changes the verdict, which is the only exception to the
original claim. -/
theorem validate_username_characterization (s : Str) (hn : '\n' ∉ s) :
    (validate_username s = true ↔
      3 ≤ s.length ∧ s.length ≤ 32 ∧ ∀ c ∈ s, isUsernameChar c = true) ∧
    validate_username (s ++ ['\n']) = validate_username s := by
  have hlast : s.getLast? ≠ some '\n' := fun h => hn (mem_of_getLast h)
  constructor
  · constructor
    · intro h
      obtain ⟨k, hk, hlo, hd⟩ := (reMatchClassDollar_true_iff isUsernameChar 3 32 s).mp h
      rcases (pyDollar_true_iff s k).mp hd with hke | ⟨_, hnl⟩
      · subst hke
        have hrun : (s.takeWhile isUsernameChar).length ≤ s.length :=
          takeWhile_length_le isUsernameChar s
        have hge : s.length ≤ (s.takeWhile isUsernameChar).length :=
          le_trans hk (min_le_left _ _)
        exact ⟨hlo, le_trans hk (min_le_right _ _),
          all_of_length_takeWhile (le_antisymm hrun hge)⟩
      · exact absurd hnl hlast
    · rintro ⟨h3, h32, hall⟩
      refine (reMatchClassDollar_true_iff isUsernameChar 3 32 s).mpr ⟨s.length, ?_, h3, ?_⟩
      · rw [takeWhile_all_eq hall]
        exact le_min (le_refl _) h32
      · exact (pyDollar_true_iff s s.length).mpr (Or.inl rfl)
  · have hstop : isUsernameChar '\n' = false := by decide
    have hrun : (s ++ ['\n']).takeWhile isUsernameChar = s.takeWhile isUsernameChar :=
      takeWhile_append_stop hstop s
    apply bool_eq_of_iff
    constructor
    · intro h
      obtain ⟨k, hk, hlo, hd⟩ :=
        (reMatchClassDollar_true_iff isUsernameChar 3 32 (s ++ ['\n'])).mp h
      rw [hrun] at hk
      refine (reMatchClassDollar_true_iff isUsernameChar 3 32 s).mpr ⟨k, hk, hlo, ?_⟩
      rcases (pyDollar_true_iff (s ++ ['\n']) k).mp hd with hke | ⟨hke, _⟩
      · exfalso
        have hle : k ≤ s.length :=
          le_trans (le_trans hk (min_le_left _ _)) (takeWhile_length_le isUsernameChar s)
        rw [hke] at hle
        simp at hle
      · have hks : k = s.length := by
          have := hke
          simp only [List.length_append, List.length_cons, List.length_nil] at this
          omega
        exact (pyDollar_true_iff s k).mpr (Or.inl hks)
    · intro h
      obtain ⟨k, hk, hlo, hd⟩ := (reMatchClassDollar_true_iff isUsernameChar 3 32 s).mp h
      rw [← hrun] at hk
      refine (reMatchClassDollar_true_iff isUsernameChar 3 32 (s ++ ['\n'])).mpr
        ⟨k, hk, hlo, ?_⟩
      rcases (pyDollar_true_iff s k).mp hd with hke | ⟨_, hnl⟩
      · refine (pyDollar_true_iff (s ++ ['\n']) k).mpr (Or.inr ⟨?_, ?_⟩)
        · simp [hke]
        · simp
      · exact absurd hnl hlast

/-- Witness for `validate_username_characterization` at `"alice"`. -/
theorem validate_username_characterization_witness :
    validate_username "alice".toList = true :=
  (validate_username_characterization "alice".toList (by decide)).1.mpr (by decide)

/-! ## The email matcher, characterized -/

theorem reverse_append_cons (xs : Str) (y : Char) (ys : Str) :
    (xs ++ y :: ys).reverse = ys.reverse ++ y :: xs.reverse := by
  simp

/-- A successful `emailCoreMatch` yields the decomposition described by the
regex: a nonempty local part, `@`, a nonempty domain, a literal `.`, and an
alphabetic label of length at least two reaching the end. -/
theorem emailCoreMatch_sound {s : Str} (h : emailCoreMatch s = true) :
    ∃ l d t, s = l ++ '@' :: (d ++ '.' :: t) ∧ l ≠ [] ∧
      (∀ c ∈ l, isLocalChar c = true) ∧ d ≠ [] ∧ (∀ c ∈ d, isDomainChar c = true) ∧
      2 ≤ t.length ∧ (∀ c ∈ t, isTldChar c = true) := by
  cases hdrop : s.dropWhile (fun c => !decide (c = '@')) with
  | nil => simp [emailCoreMatch, hdrop] at h
  | cons a r =>
    have ha : a = '@' := by
      have := dropWhile_head_false hdrop
      simpa using this
    cases hdrop2 : r.reverse.dropWhile isTldChar with
    | nil => simp [emailCoreMatch, hdrop, hdrop2] at h
    | cons c dRev =>
      simp only [emailCoreMatch, hdrop, hdrop2, Bool.and_eq_true, Bool.not_eq_true',
        List.isEmpty_eq_false, List.all_eq_true, decide_eq_true_eq] at h
      obtain ⟨⟨hlne, hla⟩, ⟨⟨hcdot, hlen⟩, hdne⟩, hda⟩ := h
      have hsplit : s.takeWhile (fun c => !decide (c = '@')) ++ a :: r = s := by
        rw [← hdrop]
        exact List.takeWhile_append_dropWhile _ s
      have hsplit2 : r.reverse.takeWhile isTldChar ++ c :: dRev = r.reverse := by
        rw [← hdrop2]
        exact List.takeWhile_append_dropWhile isTldChar r.reverse
      have hr : r = dRev.reverse ++ c :: (r.reverse.takeWhile isTldChar).reverse := by
        have := congrArg List.reverse hsplit2
        rw [List.reverse_reverse, reverse_append_cons] at this
        exact this.symm
      set T := (r.reverse.takeWhile isTldChar).reverse with hT
      have heq : s = s.takeWhile (fun c => !decide (c = '@')) ++
          '@' :: (dRev.reverse ++ '.' :: T) := by
        calc s = s.takeWhile (fun c => !decide (c = '@')) ++ a :: r := hsplit.symm
          _ = _ := by rw [ha, hr, hcdot]
      refine ⟨s.takeWhile (fun c => !decide (c = '@')), dRev.reverse, T,
        heq, hlne, hla, ?_, ?_, ?_, ?_⟩
      · intro h0
        exact hdne (List.reverse_eq_nil_iff.mp h0)
      · intro x hx
        exact hda x (List.mem_reverse.mp hx)
      · rw [hT, List.length_reverse]
        exact hlen
      · intro x hx
        rw [hT] at hx
        exact List.mem_takeWhile_imp (List.mem_reverse.mp hx)

/-- Any string of the regex's shape is accepted by `emailCoreMatch`. -/
theorem emailCoreMatch_complete {l d t : Str} (hl : l ≠ [])
    (hla : ∀ c ∈ l, isLocalChar c = true) (hd : d ≠ [])
    (hda : ∀ c ∈ d, isDomainChar c = true) (ht2 : 2 ≤ t.length)
    (hta : ∀ c ∈ t, isTldChar c = true) :
    emailCoreMatch (l ++ '@' :: (d ++ '.' :: t)) = true := by
  have hql : ∀ c ∈ l, (fun c => !decide (c = '@')) c = true := by
    intro c hc
    have hcl := hla c hc
    simp only [Bool.not_eq_true', decide_eq_false_iff_not]
    intro hceq
    rw [hceq] at hcl
    exact absurd hcl (by decide)
  have hta_rev : ∀ c ∈ t.reverse, isTldChar c = true := fun c hc =>
    hta c (List.mem_reverse.mp hc)
  have hdropw : (l ++ '@' :: (d ++ '.' :: t)).dropWhile (fun c => !decide (c = '@')) =
      '@' :: (d ++ '.' :: t) := dropWhile_all_append (by decide) l _ hql
  have htakew : (l ++ '@' :: (d ++ '.' :: t)).takeWhile (fun c => !decide (c = '@')) = l :=
    takeWhile_all_append (by decide) l _ hql
  have hrev : (d ++ '.' :: t).reverse = t.reverse ++ '.' :: d.reverse :=
    reverse_append_cons d '.' t
  have hdrop2 : (d ++ '.' :: t).reverse.dropWhile isTldChar = '.' :: d.reverse := by
    rw [hrev]
    exact dropWhile_all_append (by decide) t.reverse d.reverse hta_rev
  have htake2 : (d ++ '.' :: t).reverse.takeWhile isTldChar = t.reverse := by
    rw [hrev]
    exact takeWhile_all_append (by decide) t.reverse d.reverse hta_rev
  simp only [emailCoreMatch, hdropw, htakew, hdrop2, htake2, Bool.and_eq_true,
    Bool.not_eq_true', List.isEmpty_eq_false, List.all_eq_true, decide_eq_true_eq,
    List.length_reverse]
  refine ⟨⟨hl, hla⟩, ⟨⟨trivial, ht2⟩, ?_⟩, fun x hx => hda x (List.mem_reverse.mp hx)⟩
  intro h0
  exact hd (List.reverse_eq_nil_iff.mp h0)

theorem validate_email_eq_core {s : Str} (hn : '\n' ∉ s) :
    validate_email s = emailCoreMatch s := by
  cases hlast : s.getLast? with
  | none => simp [validate_email, hlast]
  | some c =>
    have hc : ¬(c = '\n') := fun h => hn (h ▸ mem_of_getLast hlast)
    simp [validate_email, hlast, hc]

theorem emailCoreMatch_getLast_tld {s : Str} (h : emailCoreMatch s = true) {c : Char}
    (hlast : s.getLast? = some c) : isTldChar c = true := by
  obtain ⟨l, d, t, hs, _, _, _, _, ht2, hta⟩ := emailCoreMatch_sound h
  have htne : t ≠ [] := by
    intro h0
    rw [h0] at ht2
    simp at ht2
  obtain ⟨c', hc'⟩ : ∃ x, t.getLast? = some x := by
    cases t with
    | nil => exact absurd rfl htne
    | cons a as => exact ⟨_, rfl⟩
  have hst : s.getLast? = some c' := by
    rw [hs, getLast_append_cons l '@' (d ++ '.' :: t)]
    rw [show ('@' :: (d ++ '.' :: t) : Str) = ('@' :: d) ++ '.' :: t from rfl]
    rw [getLast_append_cons ('@' :: d) '.' t]
    cases t with
    | nil => exact absurd rfl htne
    | cons a as =>
      rw [List.getLast?_cons_cons]
      exact hc'
  have hcc : c = c' := by
    rw [hlast] at hst
    exact Option.some.inj hst
  exact hcc ▸ hta c' (mem_of_getLast hc')

theorem emailCoreMatch_concat_newline (s : Str) : emailCoreMatch (s ++ ['\n']) = false := by
  cases hb : emailCoreMatch (s ++ ['\n']) with
  | false => rfl
  | true =>
    have := emailCoreMatch_getLast_tld hb (show (s ++ ['\n']).getLast? = some '\n' by simp)
    exact absurd this (by decide)

theorem validate_email_true_core {s : Str} (h : validate_email s = true)
    (hlast : s.getLast? ≠ some '\n') : emailCoreMatch s = true := by
  simp only [validate_email, Bool.or_eq_true] at h
  rcases h with h | h
  · exact h
  · cases hg : s.getLast? with
    | none => rw [hg] at h; simp at h
    | some c =>
      rw [hg] at h
      simp only [Bool.and_eq_true, decide_eq_true_eq] at h
      obtain ⟨hc, _⟩ := h
      rw [hc] at hg
      exact absurd hg hlast

theorem emailCore_false_of_no_at {s : Str} (hat : '@' ∉ s) : emailCoreMatch s = false := by
  have hq : ∀ c ∈ s, (fun c => !decide (c = '@')) c = true := by
    intro c hc
    simp only [Bool.not_eq_true', decide_eq_false_iff_not]
    exact fun h => hat (h ▸ hc)
  simp [emailCoreMatch, dropWhile_nil_of_all hq]

theorem emailCore_false_of_no_dot {s : Str} (hdot : '.' ∉ s) : emailCoreMatch s = false := by
  cases hb : emailCoreMatch s with
  | false => rfl
  | true =>
    obtain ⟨l, d, t, hs, _, _, _, _, _, _⟩ := emailCoreMatch_sound hb
    exact absurd (show ('.' : Char) ∈ s by rw [hs]; simp) hdot

theorem tldOf_append_dot {a t : Str} (ht : ∀ c ∈ t, isTldChar c = true) :
    tldOf (a ++ '.' :: t) = t := by
  have hq : ∀ c ∈ t.reverse, (fun c => !decide (c = '.')) c = true := by
    intro c hc
    simp only [Bool.not_eq_true', decide_eq_false_iff_not]
    intro hcd
    have := ht c (List.mem_reverse.mp hc)
    rw [hcd] at this
    exact absurd this (by decide)
  unfold tldOf
  rw [reverse_append_cons, takeWhile_all_append (by decide) t.reverse a.reverse hq,
    List.reverse_reverse]

theorem validate_email_false_of_no_at {s : Str} (hat : '@' ∉ s) :
    validate_email s = false := by
  have h1 := emailCore_false_of_no_at hat
  have h2 := emailCore_false_of_no_at (fun h => hat (mem_of_mem_dropLast h))
  cases hg : s.getLast? with
  | none => simp [validate_email, hg, h1]
  | some c => simp [validate_email, hg, h1, h2]

theorem validate_email_false_of_no_dot {s : Str} (hdot : '.' ∉ s) :
    validate_email s = false := by
  have h1 := emailCore_false_of_no_dot hdot
  have h2 := emailCore_false_of_no_dot (fun h => hdot (mem_of_mem_dropLast h))
  cases hg : s.getLast? with
  | none => simp [validate_email, hg, h1]
  | some c => simp [validate_email, hg, h1, h2]

theorem validate_email_concat_newline {s : Str} (hn : '\n' ∉ s) :
    validate_email (s ++ ['\n']) = validate_email s := by
  rw [validate_email_eq_core hn]
  simp [validate_email, emailCoreMatch_concat_newline, List.dropLast_concat]

/-! ## Claim C7: the email validator -/

/-- C7 counterexample: the claim says `validate_email` returns false for
every string lacking a top-level label of at least two letters, but
`"a@b.co\n"` — whose part after the last `.` is `"co\n"`, which contains
the non-letter `'\n'` — is accepted, because Python's `$` also matches just
before a trailing newline. -/
theorem validate_email_trailing_newline_counterexample :
    validate_email "a@b.co\n".toList = true ∧
      tldOf "a@b.co\n".toList = "co\n".toList ∧
      '\n' ∈ tldOf "a@b.co\n".toList ∧ isTldChar '\n' = false := by decide

/-- C7 amended: `validate_email` returns true for every string of shape
`local@domain.tld` (nonempty local part over `[A-Za-z0-9._%+-]`, nonempty
domain over `[A-Za-z0-9.-]`, a dot, and a top-level label of at least two
letters); it returns false for every string lacking `@` or lacking `.`;
for strings not ending in a newline it returns false when the part after
the last `.` is not a label of at least two letters; and appending one
trailing newline to a newline-free string never changes the verdict, which
is the only exception to the original claim. -/
theorem validate_email_characterization (s : Str) :
    ((∃ l d t, s = l ++ '@' :: (d ++ '.' :: t) ∧ l ≠ [] ∧
        (∀ c ∈ l, isLocalChar c = true) ∧ d ≠ [] ∧ (∀ c ∈ d, isDomainChar c = true) ∧
        2 ≤ t.length ∧ (∀ c ∈ t, isTldChar c = true)) → validate_email s = true) ∧
    ('@' ∉ s → validate_email s = false) ∧
    ('.' ∉ s → validate_email s = false) ∧
    (s.getLast? ≠ some '\n' →
      ¬(2 ≤ (tldOf s).length ∧ ∀ c ∈ tldOf s, isTldChar c = true) →
      validate_email s = false) ∧
    ('\n' ∉ s → validate_email (s ++ ['\n']) = validate_email s) := by
  refine ⟨?_, validate_email_false_of_no_at, validate_email_false_of_no_dot, ?_,
    validate_email_concat_newline⟩
  · rintro ⟨l, d, t, rfl, hl, hla, hd, hda, ht2, hta⟩
    have := emailCoreMatch_complete hl hla hd hda ht2 hta
    simp [validate_email, this]
  · intro hlast hbad
    cases hb : validate_email s with
    | false => rfl
    | true =>
      exfalso
      have hcore := validate_email_true_core hb hlast
      obtain ⟨l, d, t, hs, _, _, _, _, ht2, hta⟩ := emailCoreMatch_sound hcore
      have hs2 : s = (l ++ '@' :: d) ++ '.' :: t := by rw [hs]; simp
      have htld : tldOf s = t := by
        rw [hs2]
        exact tldOf_append_dot hta
      exact hbad ⟨htld ▸ ht2, htld ▸ hta⟩

/-- Witness for `validate_email_characterization` at `"alice@example.com"`. -/
theorem validate_email_characterization_witness :
    validate_email "alice@example.com".toList = true :=
  (validate_email_characterization "alice@example.com".toList).1
    ⟨"alice".toList, "example".toList, "com".toList, by decide, by decide, by decide,
      by decide, by decide, by decide, by decide⟩

/-! ## Lookup and update lemmas for the users mapping -/

theorem findUser_append_some {us : Users} {u : Str} {r : AutheliaUser}
    (h : findUser us u = some r) (vs : Users) : findUser (us ++ vs) u = some r := by
  induction us with
  | nil => simp [findUser] at h
  | cons p rest ih =>
    obtain ⟨k, r'⟩ := p
    by_cases hk : k = u
    · simp only [findUser, if_pos hk] at h
      simp [findUser, if_pos hk, h]
    · simp only [findUser, if_neg hk] at h
      simp [findUser, if_neg hk, ih h]

theorem findUser_append_none {us : Users} {u : Str} (h : findUser us u = none)
    (vs : Users) : findUser (us ++ vs) u = findUser vs u := by
  induction us with
  | nil => rfl
  | cons p rest ih =>
    obtain ⟨k, r'⟩ := p
    by_cases hk : k = u
    · simp [findUser, if_pos hk] at h
    · simp only [findUser, if_neg hk] at h
      simp [findUser, if_neg hk, ih h]

theorem findUser_insert_self {us : Users} {u : Str} (h : findUser us u = none)
    (r : AutheliaUser) : findUser (insertUser us u r) u = some r := by
  rw [insertUser, findUser_append_none h]
  simp [findUser]

theorem findUser_insert_ne {us : Users} {k v : Str} (hne : k ≠ v) (r : AutheliaUser) :
    findUser (insertUser us k r) v = findUser us v := by
  cases h : findUser us v with
  | some r' => exact findUser_append_some h _
  | none =>
    rw [insertUser, findUser_append_none h]
    simp [findUser, if_neg hne]

theorem findUser_setEmail_self {u : Str} (e : Str) :
    ∀ {us : Users} {r : AutheliaUser}, findUser us u = some r →
      findUser (setEmail us u e) u = some { r with email := some e }
  | [], r, h => by simp [findUser] at h
  | (k, r') :: rest, r, h => by
    by_cases hk : k = u
    · simp only [findUser, if_pos hk] at h
      cases h
      simp [setEmail, findUser, if_pos hk]
    · simp only [findUser, if_neg hk] at h
      simp [setEmail, findUser, if_neg hk, findUser_setEmail_self e h]

theorem findUser_setEmail_ne {u v : Str} (hne : u ≠ v) (e : Str) :
    ∀ us : Users, findUser (setEmail us u e) v = findUser us v
  | [] => rfl
  | (k, r') :: rest => by
    by_cases hk : k = u
    · have hkv : ¬(k = v) := fun h0 => hne ((hk.symm.trans h0))
      simp [setEmail, findUser, if_pos hk, if_neg hkv]
    · by_cases hkv : k = v
      · simp [setEmail, findUser, if_neg hk, if_pos hkv]
      · simp [setEmail, findUser, if_neg hk, if_neg hkv, findUser_setEmail_ne hne e rest]

/-! ## Claim C1: creation of a fresh user -/

/-- C1: from an empty target, the single valid source row alice yields
exactly one record keyed `alice`, with the source email, the titlecased
displayname, the singleton default-group list, and as password the hash of
the first freshly generated 16-character secret; `new_users` is 1.  The
hypotheses express the two external facts the claim rests on: every encoded
Argon2 hash starts with the fixed `$argon2id$...` header (so it is never
the 16-character plaintext itself), and the freshly drawn secret does not
collide with the configured group name. -/
theorem alice_fresh_creation (draws : Nat → Nat → Fin password_alphabet.length)
    (hash : Str → Str) (g : Str)
    (hhash : ∀ s, argon2Header <+: hash s)
    (hg : g ≠ generate_password (draws 0) 16) :
    syncLoop draws hash g [⟨"alice".toList, "alice@example.com".toList⟩] ⟨[], 0, 0, 0⟩ =
      ⟨[("alice".toList,
        ⟨some "Alice".toList, some (hash (generate_password (draws 0) 16)),
         some "alice@example.com".toList, some [g]⟩)], 1, 0, 1⟩ ∧
    pyTitle "alice".toList = "Alice".toList ∧
    "Alice".toList ≠ generate_password (draws 0) 16 ∧
    hash (generate_password (draws 0) 16) ≠ generate_password (draws 0) 16 ∧
    "alice@example.com".toList ≠ generate_password (draws 0) 16 ∧
    ∀ x ∈ [g], x ≠ generate_password (draws 0) 16 := by
  have hp16 : (generate_password (draws 0) 16).length = 16 := by
    simp [generate_password]
  have hA : pyTitle "alice".toList = "Alice".toList := by decide
  refine ⟨?_, hA, ?_, ?_, ?_, ?_⟩
  · rfl
  · intro h0
    have := congrArg List.length h0
    rw [hp16] at this
    simp at this
  · intro h0
    have hlen := (hhash (generate_password (draws 0) 16)).length_le
    rw [h0, hp16] at hlen
    have : argon2Header.length = 31 := by decide
    omega
  · intro h0
    have := congrArg List.length h0
    rw [hp16] at this
    simp at this
  · simp only [List.mem_singleton]
    rintro x rfl
    exact hg

/-- Witness for `alice_fresh_creation` with the concrete draws, hasher and
group defined above. -/
theorem alice_fresh_creation_witness :
    syncLoop demoDraws demoHash demoGroup
        [⟨"alice".toList, "alice@example.com".toList⟩] ⟨[], 0, 0, 0⟩ =
      ⟨[("alice".toList,
        ⟨some "Alice".toList, some (demoHash (generate_password (demoDraws 0) 16)),
         some "alice@example.com".toList, some [demoGroup]⟩)], 1, 0, 1⟩ :=
  (alice_fresh_creation demoDraws demoHash demoGroup
    (fun s => ⟨s, rfl⟩) (by decide)).1

/-! ## Claim C2: update of an existing user -/

/-- C2: when the target already has a record for `u` and the valid source
entry carries email `e2`, a differing stored email is overwritten in place —
the record keeps its password, displayname and groups, every other username
resolves as before, `updated_users` becomes 1 and `new_users` stays 0 —
while an equal stored email leaves the whole state untouched. -/
theorem existing_user_email_update_frame
    (draws : Nat → Nat → Fin password_alphabet.length) (hash : Str → Str) (g : Str)
    (U : Users) (u e2 : Str) (r : AutheliaUser)
    (hu : validate_username u = true) (he : validate_email e2 = true)
    (hfind : findUser U u = some r) :
    (r.email.getD [] ≠ e2 →
      syncLoop draws hash g [⟨u, e2⟩] ⟨U, 0, 0, 0⟩ = ⟨setEmail U u e2, 0, 1, 0⟩ ∧
      findUser (setEmail U u e2) u = some { r with email := some e2 } ∧
      ∀ v, v ≠ u → findUser (setEmail U u e2) v = findUser U v) ∧
    (r.email.getD [] = e2 →
      syncLoop draws hash g [⟨u, e2⟩] ⟨U, 0, 0, 0⟩ = ⟨U, 0, 0, 0⟩) := by
  constructor
  · intro hne
    refine ⟨?_, findUser_setEmail_self e2 hfind, fun v hv => findUser_setEmail_ne hv.symm e2 U⟩
    simp [syncLoop, syncStep, hu, he, hfind, hne]
  · intro heq
    simp [syncLoop, syncStep, hu, he, hfind, heq]

/-- Witness for `existing_user_email_update_frame`: bob with an old stored
email is updated, and the same call with the already-stored email is a
no-op. -/
theorem existing_user_email_update_frame_witness :
    syncLoop demoDraws demoHash demoGroup [⟨"bob".toList, "new@x.com".toList⟩]
        ⟨demoBobUsers, 0, 0, 0⟩ =
      ⟨setEmail demoBobUsers "bob".toList "new@x.com".toList, 0, 1, 0⟩ :=
  ((existing_user_email_update_frame demoDraws demoHash demoGroup demoBobUsers
    "bob".toList "new@x.com".toList demoBobRecord (by decide) (by decide)
    (by decide)).1 (by decide)).1

/-! ## Claim C8: an existing record without an email key -/

/-- C8: a record lacking the `email` key is read as the empty string by
`.get('email', '')`; any valid source email is nonempty, so the pass simply
writes the source email into the record and counts one update — it neither
fails nor skips the record. -/
theorem missing_email_field_treated_as_blank
    (draws : Nat → Nat → Fin password_alphabet.length) (hash : Str → Str) (g : Str)
    (U : Users) (u e2 : Str) (r : AutheliaUser)
    (hu : validate_username u = true) (he : validate_email e2 = true)
    (hfind : findUser U u = some r) (hmail : r.email = none) :
    syncLoop draws hash g [⟨u, e2⟩] ⟨U, 0, 0, 0⟩ = ⟨setEmail U u e2, 0, 1, 0⟩ ∧
    findUser (setEmail U u e2) u = some { r with email := some e2 } := by
  have hne : r.email.getD [] ≠ e2 := by
    rw [hmail]
    simp only [Option.getD_none]
    intro h0
    rw [← h0] at he
    exact absurd he (by decide)
  refine ⟨?_, findUser_setEmail_self e2 hfind⟩
  simp [syncLoop, syncStep, hu, he, hfind, hne]

/-- Witness for `missing_email_field_treated_as_blank`: a carol record with
no `email` key gets the source email written and counted as an update. -/
theorem missing_email_field_treated_as_blank_witness :
    syncLoop demoDraws demoHash demoGroup [⟨"carol".toList, "carol@example.com".toList⟩]
        ⟨[("carol".toList, ⟨some "Carol".toList, some "h".toList, none, some [demoGroup]⟩)],
          0, 0, 0⟩ =
      ⟨setEmail [("carol".toList, ⟨some "Carol".toList, some "h".toList, none,
          some [demoGroup]⟩)] "carol".toList "carol@example.com".toList, 0, 1, 0⟩ :=
  (missing_email_field_treated_as_blank demoDraws demoHash demoGroup
    [("carol".toList, ⟨some "Carol".toList, some "h".toList, none, some [demoGroup]⟩)]
    "carol".toList "carol@example.com".toList
    ⟨some "Carol".toList, some "h".toList, none, some [demoGroup]⟩
    (by decide) (by decide) (by decide) rfl).1

/-! ## Loop invariants for idempotence -/

theorem syncStep_no_change (draws : Nat → Nat → Fin password_alphabet.length)
    (hash : Str → Str) (g : Str) {st : SyncState} {wu : WizarrUser}
    (h : validUser wu = true →
      ∃ r, findUser st.users wu.username = some r ∧ r.email = some wu.email) :
    syncStep draws hash g st wu = st := by
  by_cases hvu : validate_username wu.username = true
  · by_cases hve : validate_email wu.email = true
    · obtain ⟨r, hf, hr⟩ := h (by simp [validUser, hvu, hve])
      have hgd : r.email.getD [] = wu.email := by rw [hr]; rfl
      simp [syncStep, hvu, hve, hf, hgd]
    · simp [syncStep, hvu, hve]
  · simp [syncStep, hvu]

theorem syncLoop_no_change (draws : Nat → Nat → Fin password_alphabet.length)
    (hash : Str → Str) (g : Str) :
    ∀ (src : List WizarrUser) (st : SyncState),
      (∀ wu ∈ src, validUser wu = true →
        ∃ r, findUser st.users wu.username = some r ∧ r.email = some wu.email) →
      syncLoop draws hash g src st = st
  | [], _, _ => rfl
  | wu :: rest, st, h => by
    have hstep : syncStep draws hash g st wu = st :=
      syncStep_no_change draws hash g (h wu (List.mem_cons_self wu rest))
    show syncLoop draws hash g rest (syncStep draws hash g st wu) = st
    rw [hstep]
    exact syncLoop_no_change draws hash g rest st
      (fun wu2 h2 => h wu2 (List.mem_cons_of_mem wu h2))

theorem syncLoop_preserves_email (draws : Nat → Nat → Fin password_alphabet.length)
    (hash : Str → Str) (g : Str) {u e : Str} :
    ∀ (src : List WizarrUser) (st : SyncState),
      (∃ r, findUser st.users u = some r ∧ r.email = some e) →
      (∀ wu ∈ src, validUser wu = true → wu.username = u → wu.email = e) →
      ∃ r, findUser (syncLoop draws hash g src st).users u = some r ∧ r.email = some e
  | [], _, hst, _ => hst
  | wu :: rest, st, hst, h => by
    show ∃ r,
      findUser (syncLoop draws hash g rest (syncStep draws hash g st wu)).users u = some r ∧
        r.email = some e
    refine syncLoop_preserves_email draws hash g rest (syncStep draws hash g st wu) ?_
      (fun wu2 h2 hv hu2 => h wu2 (List.mem_cons_of_mem wu h2) hv hu2)
    obtain ⟨r, hf, hre⟩ := hst
    by_cases hvu : validate_username wu.username = true
    · by_cases hve : validate_email wu.email = true
      · by_cases huu : wu.username = u
        · have hemail : wu.email = e :=
            h wu (List.mem_cons_self wu rest) (by simp [validUser, hvu, hve]) huu
          have hf2 : findUser st.users wu.username = some r := by rw [huu]; exact hf
          have hgd : r.email.getD [] = wu.email := by rw [hre, hemail]; rfl
          have hstep : syncStep draws hash g st wu = st := by
            simp [syncStep, hvu, hve, hf2, hgd]
          rw [hstep]
          exact ⟨r, hf, hre⟩
        · cases hfo : findUser st.users wu.username with
          | some r2 =>
            by_cases hne2 : r2.email.getD [] = wu.email
            · have hstep : syncStep draws hash g st wu = st := by
                simp [syncStep, hvu, hve, hfo, hne2]
              rw [hstep]
              exact ⟨r, hf, hre⟩
            · have hstep : syncStep draws hash g st wu =
                  { st with users := setEmail st.users wu.username wu.email,
                            updated_users := st.updated_users + 1 } := by
                simp [syncStep, hvu, hve, hfo, hne2]
              rw [hstep]
              refine ⟨r, ?_, hre⟩
              rw [findUser_setEmail_ne huu wu.email st.users]
              exact hf
          | none =>
            have hstep : syncStep draws hash g st wu =
                ⟨insertUser st.users wu.username
                    (newAutheliaUser g wu.username wu.email
                      (hash (generate_password (draws st.secrets_used) 16))),
                  st.new_users + 1, st.updated_users, st.secrets_used + 1⟩ := by
              simp [syncStep, hvu, hve, hfo]
            rw [hstep]
            refine ⟨r, ?_, hre⟩
            rw [findUser_insert_ne huu]
            exact hf
      · have hstep : syncStep draws hash g st wu = st := by simp [syncStep, hvu, hve]
        rw [hstep]
        exact ⟨r, hf, hre⟩
    · have hstep : syncStep draws hash g st wu = st := by simp [syncStep, hvu]
      rw [hstep]
      exact ⟨r, hf, hre⟩

theorem syncLoop_emails_synced (draws : Nat → Nat → Fin password_alphabet.length)
    (hash : Str → Str) (g : Str) :
    ∀ (src : List WizarrUser) (st : SyncState),
      (∀ wu1 ∈ src, ∀ wu2 ∈ src, validUser wu1 = true → validUser wu2 = true →
        wu1.username = wu2.username → wu1.email = wu2.email) →
      ∀ wu ∈ src, validUser wu = true →
        ∃ r, findUser (syncLoop draws hash g src st).users wu.username = some r ∧
          r.email = some wu.email
  | [], _, _, _, hmem, _ => absurd hmem (List.not_mem_nil _)
  | wu0 :: rest, st, H, wu, hmem, hv => by
    show ∃ r,
      findUser (syncLoop draws hash g rest (syncStep draws hash g st wu0)).users
          wu.username = some r ∧ r.email = some wu.email
    rcases List.mem_cons.mp hmem with heq | hmem2
    · subst heq
      have hvu : validate_username wu.username = true := by
        have h0 := hv
        simp only [validUser, Bool.and_eq_true] at h0
        exact h0.1
      have hve : validate_email wu.email = true := by
        have h0 := hv
        simp only [validUser, Bool.and_eq_true] at h0
        exact h0.2
      have hestab : ∃ r, findUser (syncStep draws hash g st wu).users wu.username = some r ∧
          r.email = some wu.email := by
        cases hfo : findUser st.users wu.username with
        | some r2 =>
          by_cases hne2 : r2.email.getD [] = wu.email
          · have hstep : syncStep draws hash g st wu = st := by
              simp [syncStep, hvu, hve, hfo, hne2]
            rw [hstep]
            refine ⟨r2, hfo, ?_⟩
            cases hre : r2.email with
            | none =>
              rw [hre] at hne2
              simp only [Option.getD_none] at hne2
              rw [← hne2] at hve
              exact absurd hve (by decide)
            | some x =>
              rw [hre] at hne2
              simp only [Option.getD_some] at hne2
              rw [hne2]
          · have hstep : syncStep draws hash g st wu =
                { st with users := setEmail st.users wu.username wu.email,
                          updated_users := st.updated_users + 1 } := by
              simp [syncStep, hvu, hve, hfo, hne2]
            rw [hstep]
            exact ⟨{ r2 with email := some wu.email },
              findUser_setEmail_self wu.email hfo, rfl⟩
        | none =>
          have hstep : syncStep draws hash g st wu =
              ⟨insertUser st.users wu.username
                  (newAutheliaUser g wu.username wu.email
                    (hash (generate_password (draws st.secrets_used) 16))),
                st.new_users + 1, st.updated_users, st.secrets_used + 1⟩ := by
            simp [syncStep, hvu, hve, hfo]
          rw [hstep]
          exact ⟨newAutheliaUser g wu.username wu.email
              (hash (generate_password (draws st.secrets_used) 16)),
            findUser_insert_self hfo _, rfl⟩
      exact syncLoop_preserves_email draws hash g rest (syncStep draws hash g st wu) hestab
        (fun wu2 h2 hv2 hu2 =>
          H wu2 (List.mem_cons_of_mem wu h2) wu (List.mem_cons_self wu rest) hv2 hv hu2)
    · exact syncLoop_emails_synced draws hash g rest (syncStep draws hash g st wu0)
        (fun a ha b hb => H a (List.mem_cons_of_mem wu0 ha) b (List.mem_cons_of_mem wu0 hb))
        wu hmem2 hv

/-! ## Claim C3: idempotence of the reconciliation -/

/-- C3 counterexample: with the source list naming `bob` twice with two
different valid emails, a second pass over the state produced by the first
performs two email updates, so the claimed `updatedCount = 0` on the second
run fails for this source list. -/
theorem reconcile_second_pass_counterexample :
    (syncLoop demoDraws demoHash demoGroup demoDupSource
      ⟨(syncLoop demoDraws demoHash demoGroup demoDupSource ⟨[], 0, 0, 0⟩).users,
        0, 0, 0⟩).updated_users = 2 := by decide

/-- C3 amended: provided no two source entries that pass validation share a
username while carrying different emails, a second pass (with arbitrary
fresh randomness and hashing) over the state produced by the first pass is
the identity: the users mapping is unchanged and both counters of the
second pass are zero.  Without that proviso only the counter claim fails,
as the counterexample shows. -/
theorem reconcile_second_pass_identity
    (draws draws2 : Nat → Nat → Fin password_alphabet.length)
    (hash hash2 : Str → Str) (g : Str) (src : List WizarrUser) (U : Users)
    (H : ∀ wu1 ∈ src, ∀ wu2 ∈ src, validUser wu1 = true → validUser wu2 = true →
      wu1.username = wu2.username → wu1.email = wu2.email) :
    syncLoop draws2 hash2 g src
        ⟨(syncLoop draws hash g src ⟨U, 0, 0, 0⟩).users, 0, 0, 0⟩ =
      ⟨(syncLoop draws hash g src ⟨U, 0, 0, 0⟩).users, 0, 0, 0⟩ ∧
    (syncLoop draws2 hash2 g src
        ⟨(syncLoop draws hash g src ⟨U, 0, 0, 0⟩).users, 0, 0, 0⟩).new_users = 0 ∧
    (syncLoop draws2 hash2 g src
        ⟨(syncLoop draws hash g src ⟨U, 0, 0, 0⟩).users, 0, 0, 0⟩).updated_users = 0 := by
  have hid : syncLoop draws2 hash2 g src
      ⟨(syncLoop draws hash g src ⟨U, 0, 0, 0⟩).users, 0, 0, 0⟩ =
      ⟨(syncLoop draws hash g src ⟨U, 0, 0, 0⟩).users, 0, 0, 0⟩ := by
    apply syncLoop_no_change
    intro wu hmem hv
    exact syncLoop_emails_synced draws hash g src ⟨U, 0, 0, 0⟩ H wu hmem hv
  exact ⟨hid, by rw [hid], by rw [hid]⟩

/-- Witness for `reconcile_second_pass_identity`: the single-alice source,
first pass from an empty target, second pass with different randomness. -/
theorem reconcile_second_pass_identity_witness :
    syncLoop demoDraws2 demoHash demoGroup [demoAlice]
        ⟨(syncLoop demoDraws demoHash demoGroup [demoAlice] ⟨[], 0, 0, 0⟩).users, 0, 0, 0⟩ =
      ⟨(syncLoop demoDraws demoHash demoGroup [demoAlice] ⟨[], 0, 0, 0⟩).users, 0, 0, 0⟩ :=
  (reconcile_second_pass_identity demoDraws demoDraws2 demoHash demoHash demoGroup
    [demoAlice] [] (by decide)).1

/-! ## Claim C4: load failure degrades to the empty store -/

theorem syncLoop_creates_all (draws : Nat → Nat → Fin password_alphabet.length)
    (hash : Str → Str) (g : Str) :
    ∀ (src : List WizarrUser) (st : SyncState),
      (∀ wu ∈ src, validUser wu = true) →
      src.Pairwise (fun a b => a.username ≠ b.username) →
      (∀ wu ∈ src, findUser st.users wu.username = none) →
      (syncLoop draws hash g src st).new_users = st.new_users + src.length
  | [], st, _, _, _ => by simp [syncLoop]
  | wu :: rest, st, hval, hpair, habs => by
    have hv := hval wu (List.mem_cons_self wu rest)
    have hvu : validate_username wu.username = true := by
      simp only [validUser, Bool.and_eq_true] at hv
      exact hv.1
    have hve : validate_email wu.email = true := by
      simp only [validUser, Bool.and_eq_true] at hv
      exact hv.2
    have hfo : findUser st.users wu.username = none := habs wu (List.mem_cons_self wu rest)
    have hstep : syncStep draws hash g st wu =
        ⟨insertUser st.users wu.username
            (newAutheliaUser g wu.username wu.email
              (hash (generate_password (draws st.secrets_used) 16))),
          st.new_users + 1, st.updated_users, st.secrets_used + 1⟩ := by
      simp [syncStep, hvu, hve, hfo]
    have hpair2 := List.pairwise_cons.mp hpair
    have habs2 : ∀ wu2 ∈ rest,
        findUser (syncStep draws hash g st wu).users wu2.username = none := by
      intro wu2 h2
      rw [hstep]
      show findUser (insertUser st.users wu.username
        (newAutheliaUser g wu.username wu.email
          (hash (generate_password (draws st.secrets_used) 16)))) wu2.username = none
      rw [findUser_insert_ne (hpair2.1 wu2 h2)]
      exact habs wu2 (List.mem_cons_of_mem wu h2)
    show (syncLoop draws hash g rest (syncStep draws hash g st wu)).new_users =
      st.new_users + (wu :: rest).length
    rw [syncLoop_creates_all draws hash g rest (syncStep draws hash g st wu)
      (fun a ha => hval a (List.mem_cons_of_mem wu ha)) hpair2.2 habs2, hstep]
    simp only [List.length_cons]
    omega

/-- C4: a missing, unreadable or unparsable target users file always loads
as the empty store `{'users': {}}`, and a pass over that empty store treats
every valid source user (distinct usernames) as new, creating all of them
instead of failing. -/
theorem target_load_failure_degrades_to_empty
    (lo : LoadOutcome) (hlo : ∀ d, lo ≠ LoadOutcome.yamlDoc d)
    (draws : Nat → Nat → Fin password_alphabet.length) (hash : Str → Str) (g : Str)
    (src : List WizarrUser)
    (hval : ∀ wu ∈ src, validUser wu = true)
    (hpair : src.Pairwise fun a b => a.username ≠ b.username) :
    load_authelia_users lo = ⟨some [], []⟩ ∧
    (syncLoop draws hash g src
      ⟨(load_authelia_users lo).users.getD [], 0, 0, 0⟩).new_users = src.length := by
  have hload : load_authelia_users lo = ⟨some [], []⟩ := by
    cases lo with
    | yamlDoc d => exact absurd rfl (hlo d)
    | fileMissing => rfl
    | readFailed => rfl
    | yamlFalsy => rfl
  refine ⟨hload, ?_⟩
  rw [hload]
  show (syncLoop draws hash g src ⟨[], 0, 0, 0⟩).new_users = src.length
  have := syncLoop_creates_all draws hash g src ⟨[], 0, 0, 0⟩ hval hpair (fun wu _ => rfl)
  simpa using this

/-- Witness for `target_load_failure_degrades_to_empty` at a missing file
and the single alice source row. -/
theorem target_load_failure_degrades_to_empty_witness :
    load_authelia_users LoadOutcome.fileMissing = ⟨some [], []⟩ ∧
    (syncLoop demoDraws demoHash demoGroup [demoAlice]
      ⟨(load_authelia_users LoadOutcome.fileMissing).users.getD [], 0, 0, 0⟩).new_users = 1 :=
  target_load_failure_degrades_to_empty LoadOutcome.fileMissing
    (fun d h => LoadOutcome.noConfusion h) demoDraws demoHash demoGroup [demoAlice]
    (by decide) (by decide)

/-! ## Claim C5: a hashing error aborts the pass with nothing written -/

/-- C5: if the loop raises a hashing error — which happens exactly when the
Argon2 call for some new user's fresh secret fails — then the whole pass
surfaces that error to the driver, and in particular the pass never reaches
the save decision: no document is written, not even one carrying the users
processed earlier in the same pass. -/
theorem hash_error_aborts_pass (draws : Nat → Nat → Fin password_alphabet.length)
    (hashE : Str → Except HashErr Str) (g : Str) (src : List WizarrUser)
    (doc : TargetDoc) (e : HashErr)
    (hloop : syncLoopE draws hashE g src ⟨doc.users.getD [], 0, 0, 0⟩ = .error e) :
    sync_usersE draws hashE g src doc = .error e ∧
    ∀ d, sync_usersE draws hashE g src doc ≠ .ok (.saved d) := by
  have hno : src.isEmpty = false := by
    cases src with
    | nil => simp [syncLoopE] at hloop
    | cons a l => rfl
  constructor
  · simp [sync_usersE, hno, hloop]
  · intro d
    simp [sync_usersE, hno, hloop]

/-- Witness for `hash_error_aborts_pass`: two new users, the hasher
succeeds on the first generated secret and raises on the second; the pass
reports the error and writes nothing although alice had been processed. -/
theorem hash_error_aborts_pass_witness :
    sync_usersE demoDraws2 demoHashFailSecond demoGroup [demoAlice, demoCarol] demoDoc =
      .error .argon2Error :=
  (hash_error_aborts_pass demoDraws2 demoHashFailSecond demoGroup [demoAlice, demoCarol]
    demoDoc .argon2Error (by rfl)).1

/-! ## Claim C9: other top-level keys survive a pass -/

/-- C9: whenever a pass writes the target document, the written document
differs from the loaded one only in its `users` key: every other top-level
key is carried over unchanged, and `users` holds exactly the mapping the
loop produced. -/
theorem sync_preserves_other_toplevel_keys
    (draws : Nat → Nat → Fin password_alphabet.length) (hash : Str → Str) (g : Str)
    (src : List WizarrUser) (doc d2 : TargetDoc)
    (h : sync_users draws hash g src doc = PassResult.saved d2) :
    d2.extra = doc.extra ∧
    d2.users = some (syncLoop draws hash g src ⟨doc.users.getD [], 0, 0, 0⟩).users := by
  by_cases hsrc : src.isEmpty = true
  · rw [sync_users.eq_def, if_pos hsrc] at h
    exact PassResult.noConfusion h
  · rw [sync_users.eq_def, if_neg hsrc] at h
    by_cases hch : 0 < (syncLoop draws hash g src ⟨doc.users.getD [], 0, 0, 0⟩).new_users ∨
        0 < (syncLoop draws hash g src ⟨doc.users.getD [], 0, 0, 0⟩).updated_users
    · rw [if_pos hch] at h
      have hd2 := PassResult.saved.inj h
      rw [← hd2]
      exact ⟨rfl, rfl⟩
    · rw [if_neg hch] at h
      exact PassResult.noConfusion h

/-- Witness for `sync_preserves_other_toplevel_keys`: the concrete saved
document of the alice run keeps `demoDoc`'s unrelated top-level key. -/
theorem sync_preserves_other_toplevel_keys_witness :
    demoSavedDoc.extra = demoDoc.extra :=
  (sync_preserves_other_toplevel_keys demoDraws demoHash demoGroup [demoAlice] demoDoc
    demoSavedDoc (by decide)).1

/-! ## Claim C10: an empty source list ends the pass before reconciling -/

/-- C10: whenever the source adapter yields no users — a missing database,
a read error, or genuinely zero rows — the pass takes the early return:
the result is `noUsers`, so no document is written, no restart is
requested, the target mapping is untouched, and in single-run mode the
process exits 0. -/
theorem empty_source_early_return (o : SourceOutcome)
    (draws : Nat → Nat → Fin password_alphabet.length)
    (hashE : Str → Except HashErr Str) (g : Str) (doc : TargetDoc)
    (h : get_wizarr_users o = []) :
    sync_usersE draws hashE g (get_wizarr_users o) doc = .ok .noUsers ∧
    single_pass_exit_code (sync_usersE draws hashE g (get_wizarr_users o) doc) = 0 := by
  rw [h]
  exact ⟨rfl, rfl⟩

/-- Witness for `empty_source_early_return` at a missing source database. -/
theorem empty_source_early_return_witness :
    sync_usersE demoDraws demoHashFail demoGroup
      (get_wizarr_users SourceOutcome.dbMissing) demoDoc = .ok .noUsers :=
  (empty_source_early_return SourceOutcome.dbMissing demoDraws demoHashFail demoGroup
    demoDoc rfl).1

end Autheliarr
